import Mathlib

/-!
Shallow embedding of the Bowl heterogeneous store from src/src/lib.rs.

The Rust store is a three-level map: a BTreeMap keyed by the runtime type
token TypeId, holding a HashMap keyed by organization name, holding a
HashMap keyed by the item uuid, whose values are erased boxes
(Box of dyn Any).  Here the maps are modelled as association lists, the
runtime type token as a natural number, and an erased box as a dependent
pair of a token and a value of a type family at that token; downcast_ref
succeeds exactly when the stored token matches the requested one.  Rust
panics (the unwrap calls inside get, get_all and filter_by_org_and_state)
are modelled as the error branch of Except.
-/

namespace BowlSpec

/-- Runtime type token, standing for std::any::TypeId.  Distinct concrete
record types carry distinct tokens. -/
abbrev TypeId := Nat

/-- Capability contract of storable records, modelling the Rust trait
MediaTrait of src/src/lib.rs with its five methods. -/
structure MediaTrait (T : Type) (C : Type) where
  get_name : T → String
  get_uuid : T → String
  get_state : T → C
  get_organization : T → String
  set_state : T → C → T

/-- An erased box, Box of dyn Any: it records the runtime type token of the
value it holds, and recovery compares tokens. -/
structure AnyBox (Fam : TypeId → Type) where
  tid : TypeId
  val : Fam tid

/-- Checked recovery of the concrete shape, modelling downcast_ref. -/
def AnyBox.downcast {Fam : TypeId → Type} (b : AnyBox Fam) (t : TypeId) : Option (Fam t) :=
  if h : b.tid = t then some (h ▸ b.val) else none

/-- The in-place mutation done by update_state: downcast_mut followed by
set_state; when the token does not match, the box is left unchanged. -/
def AnyBox.updState {Fam : TypeId → Type} {C : Type} (b : AnyBox Fam) (t : TypeId)
    (inst : MediaTrait (Fam t) C) (st : C) : AnyBox Fam :=
  if h : b.tid = t then ⟨t, inst.set_state (h ▸ b.val) st⟩ else b

namespace BMap

/-- Lookup in an association list, modelling HashMap::get / BTreeMap::get. -/
def find? {α β : Type} [DecidableEq α] (k : α) : List (α × β) → Option β
  | [] => none
  | p :: rest => if p.1 = k then some p.2 else find? k rest

/-- Insert or replace, modelling HashMap::insert and the
entry(..).and_modify(..) replacement path of Bowl::add. -/
def insert {α β : Type} [DecidableEq α] (k : α) (v : β) : List (α × β) → List (α × β)
  | [] => [(k, v)]
  | p :: rest => if p.1 = k then (k, v) :: rest else p :: insert k v rest

/-- In-place modification of the value at a key, if present; modelling the
get_mut based mutation chains of update_state. -/
def modify {α β : Type} [DecidableEq α] (k : α) (f : β → β) : List (α × β) → List (α × β)
  | [] => []
  | p :: rest => if p.1 = k then (p.1, f p.2) :: rest else p :: modify k f rest

/-- Removal of the entry at a key, modelling HashMap::remove. -/
def erase {α β : Type} [DecidableEq α] (k : α) : List (α × β) → List (α × β)
  | [] => []
  | p :: rest => if p.1 = k then rest else p :: erase k rest

/-- entry(k).or_default(): make sure the key is present, binding it to the
default when absent. -/
def ensure {α β : Type} [DecidableEq α] (k : α) (d : β) (m : List (α × β)) : List (α × β) :=
  if (find? k m).isSome then m else m ++ [(k, d)]

/-- Keys occur at most once, as in any real HashMap state. -/
def NodupKeys {α β : Type} (m : List (α × β)) : Prop :=
  (m.map Prod.fst).Nodup

end BMap

/-- The store itself: contents is the three-level association structure of
the Rust field Bowl::contents. -/
structure Bowl (Fam : TypeId → Type) where
  contents : List (TypeId × List (String × List (String × AnyBox Fam)))

/-- Bowl::new. -/
def Bowl.new {Fam : TypeId → Type} : Bowl Fam := ⟨[]⟩

/-- Bowl::add.  Faithful to the source: the organization key is taken from
value.get_organization(), not from the org argument; the entry(..).or_default()
chain creates the type and organization partitions before the uuid slot is
filled, and an existing uuid is replaced in full. -/
def Bowl.add {Fam : TypeId → Type} {C : Type} (s : Bowl Fam) (t : TypeId)
    (inst : MediaTrait (Fam t) C) (org : String) (value : Fam t) : Bowl Fam :=
  let oKey := inst.get_organization value
  let u := inst.get_uuid value
  ⟨BMap.modify t (BMap.modify oKey (BMap.insert u ⟨t, value⟩))
    (BMap.modify t (BMap.ensure oKey [])
      (BMap.ensure t [] s.contents))⟩

/-- Bowl::get.  The source force-unwraps the per-uuid lookup, so a present
organization partition with an absent uuid is a panic, modelled as the
error branch; an absent type or organization partition is a normal None. -/
def Bowl.get {Fam : TypeId → Type} (s : Bowl Fam) (t : TypeId) (org uuid : String) :
    Except String (Option (Fam t)) :=
  match BMap.find? t s.contents with
  | none => .ok none
  | some om =>
    match BMap.find? org om with
    | none => .ok none
    | some im =>
      match BMap.find? uuid im with
      | none => .error "called Option::unwrap() on a None value"
      | some b => .ok (b.downcast t)

/-- Bowl::update_state: a chain of get_mut lookups ending in a checked
downcast_mut and set_state; every absent level is a silent no-op. -/
def Bowl.update_state {Fam : TypeId → Type} {C : Type} (s : Bowl Fam) (t : TypeId)
    (inst : MediaTrait (Fam t) C) (uuid org : String) (st : C) : Bowl Fam :=
  ⟨BMap.modify t (BMap.modify org (BMap.modify uuid (fun b => b.updState t inst st)))
    s.contents⟩

/-- Bowl::delete: remove the uuid entry if the whole coordinate chain is
present, and report whether something was removed. -/
def Bowl.delete {Fam : TypeId → Type} (s : Bowl Fam) (t : TypeId) (org uuid : String) :
    Bool × Bowl Fam :=
  match BMap.find? t s.contents with
  | none => (false, s)
  | some om =>
    match BMap.find? org om with
    | none => (false, s)
    | some im =>
      match BMap.find? uuid im with
      | none => (false, s)
      | some _ => (true, ⟨BMap.modify t (BMap.modify org (BMap.erase uuid)) s.contents⟩)

/-- The per-entry traversal of Bowl::get_all: every box is recovered with a
force-unwrapped downcast, so a box whose token does not match is a panic. -/
def downcastAll {Fam : TypeId → Type} (t : TypeId) :
    List (String × AnyBox Fam) → Except String (List (Fam t))
  | [] => .ok []
  | p :: rest =>
    match p.2.downcast t with
    | none => .error "called Option::unwrap() on a None value"
    | some v =>
      match downcastAll t rest with
      | .error e => .error e
      | .ok l => .ok (v :: l)

/-- Bowl::get_all: empty when the type or organization partition is absent. -/
def Bowl.get_all {Fam : TypeId → Type} (s : Bowl Fam) (t : TypeId) (org : String) :
    Except String (List (Fam t)) :=
  match BMap.find? t s.contents with
  | none => .ok []
  | some om =>
    match BMap.find? org om with
    | none => .ok []
    | some im => downcastAll t im

/-- The per-entry traversal of Bowl::filter_by_org_and_state: each box is
recovered with a force-unwrapped downcast and kept when the predicate on the
recovered value holds. -/
def downcastFilter {Fam : TypeId → Type} (t : TypeId) (pred : Fam t → Bool) :
    List (String × AnyBox Fam) → Except String (List (Fam t))
  | [] => .ok []
  | p :: rest =>
    match p.2.downcast t with
    | none => .error "called Option::unwrap() on a None value"
    | some v =>
      match downcastFilter t pred rest with
      | .error e => .error e
      | .ok l => .ok (if pred v then v :: l else l)

/-- Bowl::filter_by_org_and_state.  eqC models the PartialEq comparison used
by the source on lifecycle states. -/
def Bowl.filter_by_org_and_state {Fam : TypeId → Type} {C : Type} (s : Bowl Fam) (t : TypeId)
    (inst : MediaTrait (Fam t) C) (eqC : C → C → Bool) (org : String) (st : C) :
    Except String (List (Fam t)) :=
  match BMap.find? t s.contents with
  | none => .ok []
  | some om =>
    match BMap.find? org om with
    | none => .ok []
    | some im => downcastFilter t (fun v => eqC (inst.get_state v) st) im

/-- Modelled from the spec: the operation extend of section 4.1 is absent
from src/src/lib.rs (its tests only contain a commented-out call to it).
Following the words of the spec, it is a bulk insert equivalent to calling
add once per item in sequence order, each keyed by that item own recorded
organization. -/
def Bowl.extend {Fam : TypeId → Type} {C : Type} (s : Bowl Fam) (t : TypeId)
    (inst : MediaTrait (Fam t) C) (items : List (Fam t)) : Bowl Fam :=
  items.foldl (fun b i => b.add t inst (inst.get_organization i) i) s

/-- Stores reachable from Bowl::new by any sequence of operations. -/
inductive Reachable {Fam : TypeId → Type} : Bowl Fam → Prop where
  | new : Reachable Bowl.new
  | add {s : Bowl Fam} (h : Reachable s) (t : TypeId) {C : Type}
      (inst : MediaTrait (Fam t) C) (org : String) (v : Fam t) :
      Reachable (s.add t inst org v)
  | upd {s : Bowl Fam} (h : Reachable s) (t : TypeId) {C : Type}
      (inst : MediaTrait (Fam t) C) (uuid org : String) (st : C) :
      Reachable (s.update_state t inst uuid org st)
  | del {s : Bowl Fam} (h : Reachable s) (t : TypeId) (org uuid : String) :
      Reachable (s.delete t org uuid).2

/-- View of the organization partitions stored under one type token. -/
def Bowl.orgsOf {Fam : TypeId → Type} (s : Bowl Fam) (t : TypeId) :
    List (String × List (String × AnyBox Fam)) :=
  (BMap.find? t s.contents).getD []

/-- View of the uuid-keyed items of one (type, organization) partition. -/
def Bowl.itemsOf {Fam : TypeId → Type} (s : Bowl Fam) (t : TypeId) (org : String) :
    List (String × AnyBox Fam) :=
  (BMap.find? org (s.orgsOf t)).getD []

/-- Apply a transformation to the uuid-keyed map at one (type, organization)
coordinate, leaving everything else in place.  update_state and the mutating
branch of delete are both of this shape. -/
def Bowl.mapAt {Fam : TypeId → Type} (s : Bowl Fam) (t : TypeId) (org : String)
    (f : List (String × AnyBox Fam) → List (String × AnyBox Fam)) : Bowl Fam :=
  ⟨BMap.modify t (BMap.modify org f) s.contents⟩

/-- Store invariant: every erased box sits in the partition of its own
runtime type token. -/
def Bowl.TypeOk {Fam : TypeId → Type} (s : Bowl Fam) : Prop :=
  ∀ t o p, p ∈ s.itemsOf t o → p.2.tid = t

/-- One stored entry is well formed for a trait instance: its box recovers at
the partition token and the recovered value carries the entry key as uuid. -/
def boxGood {Fam : TypeId → Type} {C : Type} (t : TypeId) (inst : MediaTrait (Fam t) C)
    (p : String × AnyBox Fam) : Bool :=
  match p.2.downcast t with
  | some v => inst.get_uuid v == p.1
  | none => false

/-- The data-model invariant of the spec for one (type, organization)
partition: uuid keys are unique and each entry is keyed by the uuid of the
value its box holds. -/
def Bowl.PartGood {Fam : TypeId → Type} {C : Type} (s : Bowl Fam) (t : TypeId)
    (inst : MediaTrait (Fam t) C) (org : String) : Prop :=
  BMap.NodupKeys (s.itemsOf t org) ∧ ∀ p ∈ s.itemsOf t org, boxGood t inst p = true

/-- The computation did not panic and every returned element satisfies P. -/
def allMemOk {α : Type} (P : α → Prop) : Except String (List α) → Prop
  | .ok l => ∀ x ∈ l, P x
  | .error _ => False

/-- The computation did not panic and x is among the returned elements. -/
def memOk {α : Type} (x : α) : Except String (List α) → Prop
  | .ok l => x ∈ l
  | .error _ => False

/-- The computation did not panic. -/
def isOkE {ε α : Type} : Except ε α → Bool
  | .ok _ => true
  | .error _ => false

/-- The lifecycle state enumeration of the test suite. -/
inductive Bingo where
  | Runnable
  | Running
  | Finished
  | Failed
deriving DecidableEq

/-- The concrete record shape of the test suite (MediaFile). -/
structure Item (C : Type) where
  name : String
  uuid : String
  state : C
  organization : String
deriving DecidableEq

/-- A family in which every runtime token carries the same concrete shape:
distinct record types with identical field layouts. -/
abbrev ItemFam (C : Type) : TypeId → Type := fun _ => Item C

/-- The MediaTrait implementation of the test suite for Item. -/
def itemTrait (C : Type) : MediaTrait (Item C) C where
  get_name := fun i => i.name
  get_uuid := fun i => i.uuid
  get_state := fun i => i.state
  get_organization := fun i => i.organization
  set_state := fun i st => { i with state := st }

/-- Decidable state comparison standing for PartialEq on Bingo. -/
def bingoEq (a b : Bingo) : Bool := decide (a = b)

/-- Sample item of the test suite. -/
def itA : Item Bingo := ⟨"test.mp4", "1234", Bingo.Runnable, "test"⟩

/-- A one-item store: the state after adding itA to the fresh store. -/
def bowl1 : Bowl (ItemFam Bingo) :=
  (Bowl.new).add 0 (itemTrait Bingo) "test" itA

/-- An item whose internal organization field is B. -/
def itemOrgB : Item Bingo := ⟨"b.mp4", "u1", Bingo.Runnable, "B"⟩

/-- Items for the state-filter scenario. -/
def itX : Item Bingo := ⟨"x.mp4", "12341", Bingo.Runnable, "test"⟩

/-- Second item for the state-filter scenario. -/
def itY : Item Bingo := ⟨"y.mp4", "12342", Bingo.Runnable, "test"⟩

/-- Replacement item: same uuid and organization as itX, different name and
state. -/
def itX2 : Item Bingo := ⟨"x2.mp4", "12341", Bingo.Finished, "test"⟩

/-- A two-item store over one organization. -/
def bowlXY : Bowl (ItemFam Bingo) :=
  ((Bowl.new).add 0 (itemTrait Bingo) "test" itX).add 0 (itemTrait Bingo) "test" itY

namespace BMap

variable {α β : Type} [DecidableEq α]

theorem find?_insert_self (k : α) (v : β) (m : List (α × β)) :
    find? k (insert k v m) = some v := by
  induction m with
  | nil => simp [insert, find?]
  | cons p rest ih =>
    by_cases h : p.1 = k
    · simp [insert, h, find?]
    · simp [insert, h, find?, ih]

theorem find?_insert_ne {k2 k : α} (h : k2 ≠ k) (v : β) (m : List (α × β)) :
    find? k2 (insert k v m) = find? k2 m := by
  induction m with
  | nil => simp [insert, find?, Ne.symm h]
  | cons p rest ih =>
    by_cases hp : p.1 = k
    · subst hp
      simp [insert, find?, Ne.symm h]
    · simp [insert, hp, find?, ih]

theorem find?_modify_self (k : α) (f : β → β) (m : List (α × β)) :
    find? k (modify k f m) = (find? k m).map f := by
  induction m with
  | nil => simp [modify, find?]
  | cons p rest ih =>
    by_cases h : p.1 = k
    · simp [modify, h, find?]
    · simp [modify, h, find?, ih]

theorem find?_modify_ne {k2 k : α} (h : k2 ≠ k) (f : β → β) (m : List (α × β)) :
    find? k2 (modify k f m) = find? k2 m := by
  induction m with
  | nil => simp [modify]
  | cons p rest ih =>
    by_cases hp : p.1 = k
    · subst hp
      simp [modify, find?, Ne.symm h, ih]
    · by_cases hq : p.1 = k2
      · simp [modify, hp, find?, hq, h]
      · simp [modify, hp, find?, hq, ih]

theorem find?_append_absent (k : α) (d : β) (m : List (α × β)) :
    find? k m = none → find? k (m ++ [(k, d)]) = some d := by
  induction m with
  | nil => intro _; simp [find?]
  | cons p rest ih =>
    intro hf
    by_cases hp : p.1 = k
    · simp [find?, hp] at hf
    · simp [find?, hp] at hf ⊢
      exact ih hf

theorem find?_append_other {k2 k : α} (h : k2 ≠ k) (d : β) (m : List (α × β)) :
    find? k2 (m ++ [(k, d)]) = find? k2 m := by
  induction m with
  | nil => simp [find?, Ne.symm h]
  | cons p rest ih =>
    by_cases hp : p.1 = k2
    · simp [find?, hp]
    · simp [find?, hp, ih]

theorem find?_ensure_self (k : α) (d : β) (m : List (α × β)) :
    find? k (ensure k d m) = some ((find? k m).getD d) := by
  unfold ensure
  cases hf : find? k m with
  | some b => simp [hf]
  | none => simp [find?_append_absent k d m hf]

theorem find?_ensure_ne {k2 k : α} (h : k2 ≠ k) (d : β) (m : List (α × β)) :
    find? k2 (ensure k d m) = find? k2 m := by
  unfold ensure
  cases hf : (find? k m).isSome with
  | true => simp
  | false => simp [find?_append_other h]

theorem modify_absent {k : α} {m : List (α × β)} (h : find? k m = none) (f : β → β) :
    modify k f m = m := by
  induction m with
  | nil => simp [modify]
  | cons p rest ih =>
    by_cases hp : p.1 = k
    · simp [find?, hp] at h
    · simp [find?, hp] at h
      simp [modify, hp, ih h]

theorem modify_found_id {k : α} {m : List (α × β)} {b : β} {f : β → β}
    (h : find? k m = some b) (hf : f b = b) : modify k f m = m := by
  induction m with
  | nil => simp [find?] at h
  | cons p rest ih =>
    obtain ⟨a, c⟩ := p
    by_cases hp : a = k
    · simp [find?, hp] at h
      subst hp
      subst h
      simp [modify, hf]
    · simp [find?, hp] at h
      simp [modify, hp, ih h]

theorem find?_mem {k : α} {m : List (α × β)} {b : β} (h : find? k m = some b) :
    (k, b) ∈ m := by
  induction m with
  | nil => simp [find?] at h
  | cons p rest ih =>
    obtain ⟨a, c⟩ := p
    by_cases hp : a = k
    · simp [find?, hp] at h
      subst hp
      subst h
      exact List.mem_cons_self _ _
    · simp [find?, hp] at h
      exact List.mem_cons_of_mem _ (ih h)

theorem mem_insert {p : α × β} {k : α} {v : β} {m : List (α × β)}
    (h : p ∈ insert k v m) : p = (k, v) ∨ p ∈ m := by
  induction m with
  | nil => simpa [insert] using h
  | cons q rest ih =>
    by_cases hq : q.1 = k
    · simp [insert, hq] at h
      rcases h with h | h
      · left; simp [h]
      · right; exact List.mem_cons_of_mem _ h
    · simp [insert, hq] at h
      rcases h with h | h
      · right; simp [h]
      · rcases ih h with h2 | h2
        · left; exact h2
        · right; exact List.mem_cons_of_mem _ h2

theorem nodup_cons_split {q : α × β} {rest : List (α × β)}
    (hnd : NodupKeys (q :: rest)) :
    q.1 ∉ rest.map Prod.fst ∧ NodupKeys rest := by
  unfold NodupKeys at hnd ⊢
  rw [List.map_cons] at hnd
  exact List.nodup_cons.mp hnd

theorem mem_insert_nodup {p : α × β} {k : α} {v : β} {m : List (α × β)}
    (hnd : NodupKeys m) (h : p ∈ insert k v m) :
    p = (k, v) ∨ (p ∈ m ∧ p.1 ≠ k) := by
  induction m with
  | nil =>
    simp [insert] at h
    exact Or.inl h
  | cons q rest ih =>
    obtain ⟨hq1, hnd2⟩ := nodup_cons_split hnd
    by_cases hq : q.1 = k
    · simp [insert, hq] at h
      rcases h with h | h
      · left
        cases p
        simp_all
      · right
        refine ⟨List.mem_cons_of_mem _ h, ?_⟩
        intro hc
        apply hq1
        have hm : p.1 ∈ rest.map Prod.fst := List.mem_map_of_mem Prod.fst h
        rwa [hc, ← hq] at hm
    · simp [insert, hq] at h
      rcases h with h | h
      · right
        refine ⟨?_, ?_⟩
        · rw [h]; exact List.mem_cons_self _ _
        · rw [h]; exact hq
      · rcases ih hnd2 h with h2 | h2
        · left; exact h2
        · right; exact ⟨List.mem_cons_of_mem _ h2.1, h2.2⟩

theorem mem_modify {p : α × β} {k : α} {f : β → β} {m : List (α × β)}
    (h : p ∈ modify k f m) : p ∈ m ∨ ∃ q ∈ m, q.1 = k ∧ p = (q.1, f q.2) := by
  induction m with
  | nil => simp [modify] at h
  | cons q rest ih =>
    by_cases hq : q.1 = k
    · simp [modify, hq] at h
      rcases h with h | h
      · right; exact ⟨q, List.mem_cons_self _ _, hq, by simp [h, hq]⟩
      · left; exact List.mem_cons_of_mem _ h
    · simp [modify, hq] at h
      rcases h with h | h
      · left; simp [h]
      · rcases ih h with h2 | h2
        · left; exact List.mem_cons_of_mem _ h2
        · right
          rcases h2 with ⟨r, hr, hrk, hp⟩
          exact ⟨r, List.mem_cons_of_mem _ hr, hrk, hp⟩

theorem mem_modify_nodup {p : α × β} {k : α} {f : β → β} {m : List (α × β)}
    (hnd : NodupKeys m) (h : p ∈ modify k f m) :
    (p ∈ m ∧ p.1 ≠ k) ∨ (∃ b, find? k m = some b ∧ p = (k, f b)) := by
  induction m with
  | nil => simp [modify] at h
  | cons q rest ih =>
    obtain ⟨hq1, hnd2⟩ := nodup_cons_split hnd
    by_cases hq : q.1 = k
    · simp [modify, hq] at h
      rcases h with h | h
      · right
        refine ⟨q.2, by simp [find?, hq], ?_⟩
        cases p
        simp_all
      · left
        refine ⟨List.mem_cons_of_mem _ h, ?_⟩
        intro hc
        apply hq1
        have hm : p.1 ∈ rest.map Prod.fst := List.mem_map_of_mem Prod.fst h
        rwa [hc, ← hq] at hm
    · simp [modify, hq] at h
      rcases h with h | h
      · left
        refine ⟨?_, ?_⟩
        · rw [h]; exact List.mem_cons_self _ _
        · rw [h]; exact hq
      · rcases ih hnd2 h with h2 | h2
        · left; exact ⟨List.mem_cons_of_mem _ h2.1, h2.2⟩
        · right
          rcases h2 with ⟨b, hb, hp⟩
          exact ⟨b, by simp [find?, hq, hb], hp⟩

theorem mem_erase {p : α × β} {k : α} {m : List (α × β)} (h : p ∈ erase k m) :
    p ∈ m := by
  induction m with
  | nil => simp [erase] at h
  | cons q rest ih =>
    by_cases hq : q.1 = k
    · simp [erase, hq] at h
      exact List.mem_cons_of_mem _ h
    · simp [erase, hq] at h
      rcases h with h | h
      · simp [h]
      · exact List.mem_cons_of_mem _ (ih h)

theorem keys_insert (k : α) (v : β) (m : List (α × β)) :
    (insert k v m).map Prod.fst = if (find? k m).isSome then m.map Prod.fst
      else m.map Prod.fst ++ [k] := by
  induction m with
  | nil => simp [insert, find?]
  | cons p rest ih =>
    by_cases hp : p.1 = k
    · simp [insert, hp, find?]
    · simp [insert, hp, find?, ih]
      by_cases hf : (find? k rest).isSome
      · simp [hf]
      · simp [hf]

theorem not_mem_keys_of_absent {k : α} {m : List (α × β)} :
    find? k m = none → k ∉ m.map Prod.fst := by
  induction m with
  | nil => intro _; simp
  | cons p rest ih =>
    intro hf
    by_cases hp : p.1 = k
    · simp [find?, hp] at hf
    · simp [find?, hp] at hf
      rw [List.map_cons]
      intro hc
      rcases List.mem_cons.mp hc with hc | hc
      · exact hp hc.symm
      · exact ih hf hc

theorem nodup_insert {k : α} {v : β} {m : List (α × β)} (hnd : NodupKeys m) :
    NodupKeys (insert k v m) := by
  unfold NodupKeys at hnd ⊢
  rw [keys_insert]
  cases hf : find? k m with
  | some b => simpa using hnd
  | none =>
    have : ¬ ((none : Option β).isSome = true) := by simp
    rw [if_neg this]
    refine List.Nodup.append hnd (List.nodup_singleton k) ?_
    intro a ha hb
    rw [List.mem_singleton] at hb
    subst hb
    exact not_mem_keys_of_absent hf ha

theorem keys_modify (k : α) (f : β → β) (m : List (α × β)) :
    (modify k f m).map Prod.fst = m.map Prod.fst := by
  induction m with
  | nil => simp [modify]
  | cons p rest ih =>
    by_cases hp : p.1 = k
    · simp [modify, hp]
    · simp [modify, hp, ih]

theorem nodup_modify {k : α} {f : β → β} {m : List (α × β)} (hnd : NodupKeys m) :
    NodupKeys (modify k f m) := by
  unfold NodupKeys at hnd ⊢
  rw [keys_modify]
  exact hnd

end BMap

theorem downcast_mk {Fam : TypeId → Type} (t : TypeId) (v : Fam t) :
    (AnyBox.mk t v).downcast t = some v := by
  simp [AnyBox.downcast]

theorem downcast_tid {Fam : TypeId → Type} {b : AnyBox Fam} {t : TypeId} {v : Fam t}
    (h : b.downcast t = some v) : b.tid = t := by
  unfold AnyBox.downcast at h
  by_cases hb : b.tid = t
  · exact hb
  · rw [dif_neg hb] at h
    exact absurd h (by simp)

theorem downcast_isSome_of_tid {Fam : TypeId → Type} {b : AnyBox Fam} {t : TypeId}
    (h : b.tid = t) : (b.downcast t).isSome = true := by
  unfold AnyBox.downcast
  rw [dif_pos h]
  rfl

theorem updState_of_downcast {Fam : TypeId → Type} {C : Type} {b : AnyBox Fam} {t : TypeId}
    {v : Fam t} (inst : MediaTrait (Fam t) C) (st : C) (h : b.downcast t = some v) :
    b.updState t inst st = ⟨t, inst.set_state v st⟩ := by
  have htid := downcast_tid h
  unfold AnyBox.downcast at h
  unfold AnyBox.updState
  rw [dif_pos htid] at h ⊢
  have h2 : htid ▸ b.val = v := by injection h
  rw [h2]

theorem updState_of_fail {Fam : TypeId → Type} {C : Type} {b : AnyBox Fam} {t : TypeId}
    (inst : MediaTrait (Fam t) C) (st : C) (h : b.tid ≠ t) :
    b.updState t inst st = b := by
  unfold AnyBox.updState
  rw [dif_neg h]

theorem tid_updState {Fam : TypeId → Type} {C : Type} (b : AnyBox Fam) (t : TypeId)
    (inst : MediaTrait (Fam t) C) (st : C) :
    (b.updState t inst st).tid = b.tid := by
  unfold AnyBox.updState
  split
  · rename_i h
    simp [h]
  · rfl

theorem boxGood_elim {Fam : TypeId → Type} {C : Type} {t : TypeId}
    {inst : MediaTrait (Fam t) C} {p : String × AnyBox Fam}
    (h : boxGood t inst p = true) :
    ∃ v, p.2.downcast t = some v ∧ inst.get_uuid v = p.1 := by
  unfold boxGood at h
  cases hd : p.2.downcast t with
  | none => rw [hd] at h; simp at h
  | some v =>
    rw [hd] at h
    refine ⟨v, rfl, ?_⟩
    simpa using h

theorem find?_contents_add_self {Fam : TypeId → Type} {C : Type} (s : Bowl Fam) (t : TypeId)
    (inst : MediaTrait (Fam t) C) (org : String) (i : Fam t) :
    BMap.find? t (s.add t inst org i).contents =
      some (BMap.modify (inst.get_organization i) (BMap.insert (inst.get_uuid i) ⟨t, i⟩)
        (BMap.ensure (inst.get_organization i) [] (s.orgsOf t))) := by
  unfold Bowl.add Bowl.orgsOf
  simp [BMap.find?_modify_self, BMap.find?_ensure_self]

theorem find?_contents_add_ne {Fam : TypeId → Type} {C : Type} {t2 t : TypeId} (h : t2 ≠ t)
    (s : Bowl Fam) (inst : MediaTrait (Fam t) C) (org : String) (i : Fam t) :
    BMap.find? t2 (s.add t inst org i).contents = BMap.find? t2 s.contents := by
  unfold Bowl.add
  simp [BMap.find?_modify_ne h, BMap.find?_ensure_ne h]

theorem orgsOf_add_self {Fam : TypeId → Type} {C : Type} (s : Bowl Fam) (t : TypeId)
    (inst : MediaTrait (Fam t) C) (org : String) (i : Fam t) :
    (s.add t inst org i).orgsOf t =
      BMap.modify (inst.get_organization i) (BMap.insert (inst.get_uuid i) ⟨t, i⟩)
        (BMap.ensure (inst.get_organization i) [] (s.orgsOf t)) := by
  unfold Bowl.orgsOf
  rw [find?_contents_add_self]
  rfl

theorem itemsOf_add_self {Fam : TypeId → Type} {C : Type} (s : Bowl Fam) (t : TypeId)
    (inst : MediaTrait (Fam t) C) (org : String) (i : Fam t) :
    (s.add t inst org i).itemsOf t (inst.get_organization i) =
      BMap.insert (inst.get_uuid i) ⟨t, i⟩ (s.itemsOf t (inst.get_organization i)) := by
  unfold Bowl.itemsOf
  rw [orgsOf_add_self]
  rw [BMap.find?_modify_self, BMap.find?_ensure_self]
  simp

theorem itemsOf_add_ne_org {Fam : TypeId → Type} {C : Type} {o2 : String} (s : Bowl Fam)
    (t : TypeId) (inst : MediaTrait (Fam t) C) (org : String) (i : Fam t)
    (h : o2 ≠ inst.get_organization i) :
    (s.add t inst org i).itemsOf t o2 = s.itemsOf t o2 := by
  unfold Bowl.itemsOf
  rw [orgsOf_add_self]
  rw [BMap.find?_modify_ne h, BMap.find?_ensure_ne h]

theorem itemsOf_add_ne_t {Fam : TypeId → Type} {C : Type} {t2 t : TypeId} (h : t2 ≠ t)
    (s : Bowl Fam) (inst : MediaTrait (Fam t) C) (org o2 : String) (i : Fam t) :
    (s.add t inst org i).itemsOf t2 o2 = s.itemsOf t2 o2 := by
  unfold Bowl.itemsOf Bowl.orgsOf
  rw [find?_contents_add_ne h]

theorem find?_contents_mapAt_self {Fam : TypeId → Type} (s : Bowl Fam) (t : TypeId)
    (org : String) (f : List (String × AnyBox Fam) → List (String × AnyBox Fam)) :
    BMap.find? t (s.mapAt t org f).contents =
      (BMap.find? t s.contents).map (BMap.modify org f) := by
  unfold Bowl.mapAt
  simp [BMap.find?_modify_self]

theorem find?_contents_mapAt_ne {Fam : TypeId → Type} {t2 t : TypeId} (h : t2 ≠ t)
    (s : Bowl Fam) (org : String)
    (f : List (String × AnyBox Fam) → List (String × AnyBox Fam)) :
    BMap.find? t2 (s.mapAt t org f).contents = BMap.find? t2 s.contents := by
  unfold Bowl.mapAt
  simp [BMap.find?_modify_ne h]

theorem itemsOf_mapAt_self {Fam : TypeId → Type} (s : Bowl Fam) (t : TypeId) (org : String)
    {f : List (String × AnyBox Fam) → List (String × AnyBox Fam)} (hf : f [] = []) :
    (s.mapAt t org f).itemsOf t org = f (s.itemsOf t org) := by
  unfold Bowl.itemsOf Bowl.orgsOf
  rw [find?_contents_mapAt_self]
  cases BMap.find? t s.contents with
  | none => simp [BMap.find?, hf]
  | some om =>
    simp only [Option.map_some', Option.getD_some]
    rw [BMap.find?_modify_self]
    cases BMap.find? org om with
    | none => simp [hf]
    | some im => simp

theorem itemsOf_mapAt_ne {Fam : TypeId → Type} {t2 t : TypeId} {o2 org : String}
    (h : t2 ≠ t ∨ o2 ≠ org) (s : Bowl Fam)
    (f : List (String × AnyBox Fam) → List (String × AnyBox Fam)) :
    (s.mapAt t org f).itemsOf t2 o2 = s.itemsOf t2 o2 := by
  by_cases ht : t2 = t
  · subst ht
    have ho : o2 ≠ org := h.resolve_left (by simp)
    unfold Bowl.itemsOf Bowl.orgsOf
    rw [find?_contents_mapAt_self]
    cases BMap.find? t2 s.contents with
    | none => simp
    | some om =>
      simp only [Option.map_some', Option.getD_some]
      rw [BMap.find?_modify_ne ho]
  · unfold Bowl.itemsOf Bowl.orgsOf
    rw [find?_contents_mapAt_ne ht]

theorem update_state_eq_mapAt {Fam : TypeId → Type} {C : Type} (s : Bowl Fam) (t : TypeId)
    (inst : MediaTrait (Fam t) C) (uuid org : String) (st : C) :
    s.update_state t inst uuid org st =
      s.mapAt t org (BMap.modify uuid (fun b => b.updState t inst st)) := rfl

theorem delete_snd_eq {Fam : TypeId → Type} (s : Bowl Fam) (t : TypeId) (org uuid : String) :
    (s.delete t org uuid).2 = s ∨
    (s.delete t org uuid).2 = s.mapAt t org (BMap.erase uuid) := by
  unfold Bowl.delete
  split
  · exact Or.inl rfl
  · split
    · exact Or.inl rfl
    · split
      · exact Or.inl rfl
      · exact Or.inr rfl

theorem get_congr {Fam : TypeId → Type} {s1 s2 : Bowl Fam} {t : TypeId}
    (h : BMap.find? t s1.contents = BMap.find? t s2.contents) (org uuid : String) :
    s1.get t org uuid = s2.get t org uuid := by
  unfold Bowl.get
  rw [h]

theorem get_all_congr {Fam : TypeId → Type} {s1 s2 : Bowl Fam} {t : TypeId}
    (h : BMap.find? t s1.contents = BMap.find? t s2.contents) (org : String) :
    s1.get_all t org = s2.get_all t org := by
  unfold Bowl.get_all
  rw [h]

theorem filter_congr {Fam : TypeId → Type} {C : Type} {s1 s2 : Bowl Fam} {t : TypeId}
    (h : BMap.find? t s1.contents = BMap.find? t s2.contents)
    (inst : MediaTrait (Fam t) C) (eqC : C → C → Bool) (org : String) (st : C) :
    s1.filter_by_org_and_state t inst eqC org st =
      s2.filter_by_org_and_state t inst eqC org st := by
  unfold Bowl.filter_by_org_and_state
  rw [h]

theorem get_add_self {Fam : TypeId → Type} {C : Type} (s : Bowl Fam) (t : TypeId)
    (inst : MediaTrait (Fam t) C) (org : String) (i : Fam t) :
    (s.add t inst org i).get t (inst.get_organization i) (inst.get_uuid i) =
      .ok (some i) := by
  unfold Bowl.get
  simp only [find?_contents_add_self, BMap.find?_modify_self, BMap.find?_ensure_self,
    Option.map_some', Option.getD_some, BMap.find?_insert_self, downcast_mk]

theorem get_ok_some_elim {Fam : TypeId → Type} {s : Bowl Fam} {t : TypeId}
    {org uuid : String} {v : Fam t} (h : s.get t org uuid = .ok (some v)) :
    ∃ om im b, BMap.find? t s.contents = some om ∧ BMap.find? org om = some im ∧
      BMap.find? uuid im = some b ∧ b.downcast t = some v := by
  unfold Bowl.get at h
  split at h
  · exact absurd h (by simp)
  · rename_i om hft
    split at h
    · exact absurd h (by simp)
    · rename_i im hfo
      split at h
      · exact absurd h (by simp)
      · rename_i b hfu
        have hb : b.downcast t = some v := by
          injection h
        exact ⟨om, im, b, hft, hfo, hfu, hb⟩

theorem get_mapAt_ne_org {Fam : TypeId → Type} {o2 org : String} (h : o2 ≠ org)
    (s : Bowl Fam) (t : TypeId)
    (f : List (String × AnyBox Fam) → List (String × AnyBox Fam)) (uuid : String) :
    (s.mapAt t org f).get t o2 uuid = s.get t o2 uuid := by
  unfold Bowl.get
  rw [find?_contents_mapAt_self]
  cases BMap.find? t s.contents with
  | none => simp
  | some om =>
    simp only [Option.map_some']
    rw [BMap.find?_modify_ne h]

theorem get_mapAt_modify_ne_uuid {Fam : TypeId → Type} {u2 uuid : String} (h : u2 ≠ uuid)
    (s : Bowl Fam) (t : TypeId) (org : String) (g : AnyBox Fam → AnyBox Fam) :
    (s.mapAt t org (BMap.modify uuid g)).get t org u2 = s.get t org u2 := by
  unfold Bowl.get
  rw [find?_contents_mapAt_self]
  cases BMap.find? t s.contents with
  | none => simp
  | some om =>
    simp only [Option.map_some']
    rw [BMap.find?_modify_self]
    cases BMap.find? org om with
    | none => simp
    | some im =>
      simp only [Option.map_some']
      rw [BMap.find?_modify_ne h]

theorem get_update_found {Fam : TypeId → Type} {C : Type} {s : Bowl Fam} {t : TypeId}
    {org uuid : String} {v : Fam t} (inst : MediaTrait (Fam t) C) (st : C)
    (h : s.get t org uuid = .ok (some v)) :
    (s.update_state t inst uuid org st).get t org uuid =
      .ok (some (inst.set_state v st)) := by
  obtain ⟨om, im, b, hft, hfo, hfu, hb⟩ := get_ok_some_elim h
  rw [update_state_eq_mapAt]
  unfold Bowl.get
  rw [find?_contents_mapAt_self, hft]
  simp only [Option.map_some']
  rw [BMap.find?_modify_self, hfo]
  simp only [Option.map_some']
  rw [BMap.find?_modify_self, hfu]
  simp only [Option.map_some']
  rw [updState_of_downcast inst st hb]
  simp [downcast_mk]

theorem update_state_absent {Fam : TypeId → Type} {C : Type} {s : Bowl Fam} {t : TypeId}
    {uuid org : String} (h : BMap.find? uuid (s.itemsOf t org) = none)
    (inst : MediaTrait (Fam t) C) (st : C) :
    s.update_state t inst uuid org st = s := by
  unfold Bowl.itemsOf Bowl.orgsOf at h
  unfold Bowl.update_state
  cases hft : BMap.find? t s.contents with
  | none =>
    rw [BMap.modify_absent hft]
  | some om =>
    rw [hft] at h
    simp only [Option.getD_some] at h
    cases hfo : BMap.find? org om with
    | none =>
      rw [BMap.modify_found_id hft (BMap.modify_absent hfo _)]
    | some im =>
      rw [hfo] at h
      simp only [Option.getD_some] at h
      rw [BMap.modify_found_id hft
        (BMap.modify_found_id hfo (BMap.modify_absent h _))]

theorem downcastFilter_eq {Fam : TypeId → Type} (t : TypeId) (pred : Fam t → Bool)
    (m : List (String × AnyBox Fam)) :
    downcastFilter t pred m = (downcastAll t m).map (List.filter pred) := by
  induction m with
  | nil => simp [downcastFilter, downcastAll, Except.map]
  | cons p rest ih =>
    unfold downcastFilter downcastAll
    cases p.2.downcast t with
    | none => simp [Except.map]
    | some v =>
      simp only
      rw [ih]
      cases downcastAll t rest with
      | error e => simp [Except.map]
      | ok l => simp [Except.map, List.filter_cons]

theorem filter_eq_get_all {Fam : TypeId → Type} {C : Type} (s : Bowl Fam) (t : TypeId)
    (inst : MediaTrait (Fam t) C) (eqC : C → C → Bool) (org : String) (st : C) :
    s.filter_by_org_and_state t inst eqC org st =
      (s.get_all t org).map (List.filter (fun v => eqC (inst.get_state v) st)) := by
  unfold Bowl.filter_by_org_and_state Bowl.get_all
  cases BMap.find? t s.contents with
  | none => simp [Except.map]
  | some om =>
    simp only
    cases BMap.find? org om with
    | none => simp [Except.map]
    | some im => exact downcastFilter_eq t _ im

theorem downcastAll_ok_of {Fam : TypeId → Type} (t : TypeId)
    (m : List (String × AnyBox Fam))
    (h : ∀ p ∈ m, (p.2.downcast t).isSome = true) :
    isOkE (downcastAll t m) = true := by
  induction m with
  | nil => simp [downcastAll, isOkE]
  | cons p rest ih =>
    have hp := h p (List.mem_cons_self _ _)
    cases hd : p.2.downcast t with
    | none => rw [hd] at hp; simp at hp
    | some v =>
      unfold downcastAll
      rw [hd]
      have hr := ih (fun q hq => h q (List.mem_cons_of_mem _ hq))
      cases hra : downcastAll t rest with
      | error e => rw [hra] at hr; simp [isOkE] at hr
      | ok l => simp [isOkE]

theorem downcastFilter_allMemOk {Fam : TypeId → Type} (t : TypeId) (pred : Fam t → Bool)
    (m : List (String × AnyBox Fam)) (P : Fam t → Prop)
    (h : ∀ p ∈ m, ∃ v, p.2.downcast t = some v ∧ (pred v = true → P v)) :
    allMemOk P (downcastFilter t pred m) := by
  induction m with
  | nil => simp [downcastFilter, allMemOk]
  | cons p rest ih =>
    obtain ⟨v, hv, hPv⟩ := h p (List.mem_cons_self _ _)
    have ihr := ih (fun q hq => h q (List.mem_cons_of_mem _ hq))
    unfold downcastFilter
    rw [hv]
    cases hr : downcastFilter t pred rest with
    | error e => rw [hr] at ihr; simp [allMemOk] at ihr
    | ok l =>
      rw [hr] at ihr
      simp only [allMemOk] at ihr ⊢
      by_cases hp : pred v = true
      · simp only [hp, if_true]
        intro x hx
        rcases List.mem_cons.mp hx with hx | hx
        · subst hx; exact hPv hp
        · exact ihr x hx
      · simp only [Bool.not_eq_true] at hp
        simp only [hp, Bool.false_eq_true, if_false]
        exact ihr

theorem downcastFilter_memOk {Fam : TypeId → Type} (t : TypeId) (pred : Fam t → Bool)
    (m : List (String × AnyBox Fam)) {x : Fam t}
    (hall : ∀ p ∈ m, (p.2.downcast t).isSome = true)
    (hx : ∃ p ∈ m, p.2.downcast t = some x) (hpx : pred x = true) :
    memOk x (downcastFilter t pred m) := by
  induction m with
  | nil => simp at hx
  | cons p rest ih =>
    have hp := hall p (List.mem_cons_self _ _)
    cases hd : p.2.downcast t with
    | none => rw [hd] at hp; simp at hp
    | some v =>
      unfold downcastFilter
      rw [hd]
      rcases hx with ⟨q, hq, hqd⟩
      rcases List.mem_cons.mp hq with hq1 | hq1
      · subst hq1
        rw [hd] at hqd
        have hvx : v = x := by injection hqd
        subst hvx
        have hro : isOkE ((downcastAll t rest).map (List.filter pred)) = true := by
          rw [← downcastFilter_eq]
          rw [downcastFilter_eq]
          cases hra : downcastAll t rest with
          | error e =>
            have := downcastAll_ok_of t rest (fun r hr => hall r (List.mem_cons_of_mem _ hr))
            rw [hra] at this
            simp [isOkE] at this
          | ok l => simp [isOkE, Except.map]
        rw [← downcastFilter_eq] at hro
        cases hr : downcastFilter t pred rest with
        | error e => rw [hr] at hro; simp [isOkE] at hro
        | ok l =>
          simp only [memOk]
          rw [hpx]
          simp
      · have ihr := ih (fun r hr => hall r (List.mem_cons_of_mem _ hr)) ⟨q, hq1, hqd⟩
        cases hr : downcastFilter t pred rest with
        | error e => rw [hr] at ihr; simp [memOk] at ihr
        | ok l =>
          rw [hr] at ihr
          simp only [memOk] at ihr ⊢
          by_cases hpv : pred v = true
          · simp only [hpv, if_true]
            exact List.mem_cons_of_mem _ ihr
          · simp only [Bool.not_eq_true] at hpv
            simp only [hpv, Bool.false_eq_true, if_false]
            exact ihr

theorem BMap.insert_insert {α β : Type} [DecidableEq α] (k : α) (v1 v2 : β)
    (m : List (α × β)) :
    BMap.insert k v2 (BMap.insert k v1 m) = BMap.insert k v2 m := by
  induction m with
  | nil => simp [BMap.insert]
  | cons p rest ih =>
    by_cases hp : p.1 = k
    · simp [BMap.insert, hp]
    · simp [BMap.insert, hp, ih]

theorem itemsOf_of_finds {Fam : TypeId → Type} {s : Bowl Fam} {t : TypeId} {org : String}
    {om : List (String × List (String × AnyBox Fam))} {im : List (String × AnyBox Fam)}
    (hft : BMap.find? t s.contents = some om) (hfo : BMap.find? org om = some im) :
    s.itemsOf t org = im := by
  unfold Bowl.itemsOf Bowl.orgsOf
  rw [hft]
  simp only [Option.getD_some]
  rw [hfo]
  rfl

theorem filter_add_self {Fam : TypeId → Type} {C : Type} (s : Bowl Fam) (t : TypeId)
    (inst : MediaTrait (Fam t) C) (eqC : C → C → Bool) (org : String) (i : Fam t) (st : C) :
    (s.add t inst org i).filter_by_org_and_state t inst eqC (inst.get_organization i) st =
      downcastFilter t (fun v => eqC (inst.get_state v) st)
        (BMap.insert (inst.get_uuid i) ⟨t, i⟩ (s.itemsOf t (inst.get_organization i))) := by
  unfold Bowl.filter_by_org_and_state Bowl.itemsOf
  simp only [find?_contents_add_self, BMap.find?_modify_self, BMap.find?_ensure_self,
    Option.map_some', Option.getD_some]

theorem filter_mapAt_found {Fam : TypeId → Type} {C : Type} {s : Bowl Fam} {t : TypeId}
    {org : String} {om : List (String × List (String × AnyBox Fam))}
    {im : List (String × AnyBox Fam)}
    (hft : BMap.find? t s.contents = some om) (hfo : BMap.find? org om = some im)
    (f : List (String × AnyBox Fam) → List (String × AnyBox Fam))
    (inst : MediaTrait (Fam t) C) (eqC : C → C → Bool) (st : C) :
    (s.mapAt t org f).filter_by_org_and_state t inst eqC org st =
      downcastFilter t (fun v => eqC (inst.get_state v) st) (f im) := by
  unfold Bowl.filter_by_org_and_state
  rw [find?_contents_mapAt_self, hft]
  simp only [Option.map_some', BMap.find?_modify_self, hfo]

theorem isOkE_map {ε α β : Type} (f : α → β) (e : Except ε α) :
    isOkE (e.map f) = isOkE e := by
  cases e <;> rfl

theorem get_all_ok_of_all_downcast {Fam : TypeId → Type} {s : Bowl Fam} {t : TypeId}
    {o : String} (h : ∀ p ∈ s.itemsOf t o, (p.2.downcast t).isSome = true) :
    isOkE (s.get_all t o) = true := by
  unfold Bowl.get_all
  cases hft : BMap.find? t s.contents with
  | none => rfl
  | some om =>
    simp only
    cases hfo : BMap.find? o om with
    | none => rfl
    | some im =>
      apply downcastAll_ok_of
      intro p hp
      apply h
      rw [itemsOf_of_finds hft hfo]
      exact hp

theorem reachable_typeOk {Fam : TypeId → Type} {s : Bowl Fam} (hs : Reachable s) :
    s.TypeOk := by
  induction hs with
  | new =>
    intro t o p hp
    simp [Bowl.new, Bowl.itemsOf, Bowl.orgsOf, BMap.find?] at hp
  | add h t inst org v ih =>
    intro t2 o2 p hp
    by_cases ht : t2 = t
    · subst ht
      by_cases ho : o2 = inst.get_organization v
      · subst ho
        rw [itemsOf_add_self] at hp
        rcases BMap.mem_insert hp with he | he
        · rw [he]
        · exact ih t2 _ p he
      · rw [itemsOf_add_ne_org _ t2 inst org v ho] at hp
        exact ih t2 o2 p hp
    · rw [itemsOf_add_ne_t ht] at hp
      exact ih t2 o2 p hp
  | upd h t inst uuid org st ih =>
    intro t2 o2 p hp
    rw [update_state_eq_mapAt] at hp
    by_cases hco : t2 = t ∧ o2 = org
    · obtain ⟨ht, ho⟩ := hco
      subst ht
      subst ho
      rw [itemsOf_mapAt_self _ _ _ rfl] at hp
      rcases BMap.mem_modify hp with he | ⟨q, hq, hqk, he⟩
      · exact ih t2 o2 p he
      · have hqt := ih t2 o2 q hq
        rw [he]
        simp only
        rw [tid_updState]
        exact hqt
    · have hd : t2 ≠ t ∨ o2 ≠ org := by tauto
      rw [itemsOf_mapAt_ne hd] at hp
      exact ih t2 o2 p hp
  | del h t org uuid ih =>
    intro t2 o2 p hp
    rcases delete_snd_eq _ t org uuid with he | he
    · rw [he] at hp
      exact ih t2 o2 p hp
    · rw [he] at hp
      by_cases hco : t2 = t ∧ o2 = org
      · obtain ⟨ht, ho⟩ := hco
        subst ht
        subst ho
        rw [itemsOf_mapAt_self _ _ _ rfl] at hp
        exact ih t2 o2 p (BMap.mem_erase hp)
      · have hd : t2 ≠ t ∨ o2 ≠ org := by tauto
        rw [itemsOf_mapAt_ne hd] at hp
        exact ih t2 o2 p hp

/-- C1: the claim that every lookup operation is total on never-inserted
coordinates fails on the source.  Evaluating the embedding of Bowl::get on a
store holding only the item itA (organization "test", uuid "1234") shows the
force-unwrapped uuid lookup panic when the organization partition exists but
the id is absent, while every other absent-coordinate case is indeed an
empty result, false, or a no-op, exactly as the claim demands. -/
theorem c1_missing_id_panic_eval :
    bowl1.get 0 "test" "9999" = .error "called Option::unwrap() on a None value" ∧
    bowl1.get 0 "nowhere" "9999" = .ok none ∧
    (Bowl.new : Bowl (ItemFam Bingo)).get 1 "zz" "1234" = .ok none ∧
    bowl1.get_all 0 "nowhere" = .ok [] ∧
    bowl1.filter_by_org_and_state 0 (itemTrait Bingo) bingoEq "nowhere" Bingo.Runnable =
      .ok [] ∧
    bowl1.delete 0 "nowhere" "9999" = (false, bowl1) ∧
    bowl1.delete 0 "test" "9999" = (false, bowl1) ∧
    bowl1.update_state 0 (itemTrait Bingo) "9999" "test" Bingo.Running = bowl1 ∧
    bowl1.update_state 0 (itemTrait Bingo) "1234" "nowhere" Bingo.Running = bowl1 :=
  ⟨rfl, rfl, rfl, rfl, rfl, rfl, rfl, rfl, rfl⟩

/-- C2: round trip.  For every store, item and organization equal to the
item recorded organization, get returns exactly the added item immediately
after add. -/
theorem c2_round_trip {Fam : TypeId → Type} {C : Type} (s : Bowl Fam) (t : TypeId)
    (inst : MediaTrait (Fam t) C) (o : String) (i : Fam t)
    (h : inst.get_organization i = o) :
    (s.add t inst o i).get t o (inst.get_uuid i) = .ok (some i) := by
  rw [← h]
  exact get_add_self s t inst o i

/-- Witness for C2 at a concrete input. -/
theorem c2_round_trip_witness :
    (itemTrait Bingo).get_organization itA = "test" ∧
    ((Bowl.new : Bowl (ItemFam Bingo)).add 0 (itemTrait Bingo) "test" itA).get 0 "test"
      ((itemTrait Bingo).get_uuid itA) = .ok (some itA) :=
  ⟨rfl, c2_round_trip (Bowl.new : Bowl (ItemFam Bingo)) 0 (itemTrait Bingo) "test" itA rfl⟩

/-- C5: isolation by record type.  For distinct runtime type tokens, adding
an item under one token leaves every retrieval under the other token
(get, get_all, filter_by_org_and_state) unchanged, even at colliding
organization and id coordinates. -/
theorem c5_type_isolation {Fam : TypeId → Type} {C C1 : Type} {t1 t2 : TypeId}
    (hne : t1 ≠ t2) (s : Bowl Fam) (inst2 : MediaTrait (Fam t2) C) (org : String)
    (i : Fam t2) (inst1 : MediaTrait (Fam t1) C1) (eqC : C1 → C1 → Bool)
    (o2 u : String) (st : C1) :
    (s.add t2 inst2 org i).get t1 o2 u = s.get t1 o2 u ∧
    (s.add t2 inst2 org i).get_all t1 o2 = s.get_all t1 o2 ∧
    (s.add t2 inst2 org i).filter_by_org_and_state t1 inst1 eqC o2 st =
      s.filter_by_org_and_state t1 inst1 eqC o2 st := by
  have hf := find?_contents_add_ne hne s inst2 org i
  exact ⟨get_congr hf o2 u, get_all_congr hf o2, filter_congr hf inst1 eqC o2 st⟩

/-- Witness for C5: token 1 is isolated from an add under token 0, even at
the very same organization and id, for a family where both tokens carry
identical field layouts. -/
theorem c5_type_isolation_witness :
    (1 : TypeId) ≠ 0 ∧
    (((Bowl.new : Bowl (ItemFam Bingo)).add 0 (itemTrait Bingo) "test" itA).get 1 "test"
      "1234" = (Bowl.new : Bowl (ItemFam Bingo)).get 1 "test" "1234") ∧
    (((Bowl.new : Bowl (ItemFam Bingo)).add 0 (itemTrait Bingo) "test" itA).get_all 1
      "test" = (Bowl.new : Bowl (ItemFam Bingo)).get_all 1 "test") ∧
    (((Bowl.new : Bowl (ItemFam Bingo)).add 0 (itemTrait Bingo) "test"
      itA).filter_by_org_and_state 1 (itemTrait Bingo) bingoEq "test" Bingo.Runnable =
      (Bowl.new : Bowl (ItemFam Bingo)).filter_by_org_and_state 1 (itemTrait Bingo)
        bingoEq "test" Bingo.Runnable) := by
  have h := c5_type_isolation (show (1 : TypeId) ≠ 0 by decide) (Bowl.new : Bowl (ItemFam Bingo))
    (itemTrait Bingo) "test" itA (itemTrait Bingo) bingoEq "test" "1234" Bingo.Runnable
  exact ⟨by decide, h.1, h.2.1, h.2.2⟩

/-- C6: delete returns true and removes the item exactly when the coordinate
is present, and is a side-effect-free false on absent coordinates; but the
claim that a subsequent get returns empty fails on the source: get panics on
the now-absent id inside the still-present organization partition. -/
theorem c6_delete_eval :
    (bowl1.delete 0 "test" "1234").1 = true ∧
    (bowl1.delete 0 "test" "1234").2.get_all 0 "test" = .ok [] ∧
    (bowl1.delete 0 "test" "1234").2.get 0 "test" "1234" =
      .error "called Option::unwrap() on a None value" ∧
    bowl1.delete 0 "test" "zzzz" = (false, bowl1) ∧
    (Bowl.new : Bowl (ItemFam Bingo)).delete 0 "test" "1234" = (false, Bowl.new) :=
  ⟨rfl, rfl, rfl, rfl, rfl⟩

/-- C8 counterexample: add partitions by the internal organization field of
the item, not by its organization argument.  Adding an item whose internal
organization is B under the argument A leaves it unreachable at A and
findable at B. -/
theorem c8_org_argument_counterexample :
    ((Bowl.new : Bowl (ItemFam Bingo)).add 0 (itemTrait Bingo) "A" itemOrgB).get 0 "A"
      "u1" = .ok none ∧
    ((Bowl.new : Bowl (ItemFam Bingo)).add 0 (itemTrait Bingo) "A" itemOrgB).get 0 "B"
      "u1" = .ok (some itemOrgB) :=
  ⟨rfl, rfl⟩

/-- C8 amended: add ignores its organization argument entirely; the item is
inserted under its own recorded organization and is findable there. -/
theorem c8_amended_add_ignores_org {Fam : TypeId → Type} {C : Type} (s : Bowl Fam)
    (t : TypeId) (inst : MediaTrait (Fam t) C) (o1 o2 : String) (i : Fam t) :
    s.add t inst o1 i = s.add t inst o2 i ∧
    (s.add t inst o1 i).get t (inst.get_organization i) (inst.get_uuid i) =
      .ok (some i) :=
  ⟨rfl, get_add_self s t inst o1 i⟩

/-- C7: update_state replaces only the lifecycle state field of the item at
the given coordinate, keeping its name, uuid and organization; every other
coordinate reads unchanged; and an absent coordinate makes the whole call a
silent no-op. -/
theorem c7_update_state_frame {C : Type} (s : Bowl (ItemFam C)) (t : TypeId)
    (uuid org : String) (st : C) (v : Item C) (t2 : TypeId) (o2 u2 : String)
    (hd : t2 ≠ t ∨ o2 ≠ org ∨ u2 ≠ uuid) :
    (s.get t org uuid = .ok (some v) →
      (s.update_state t (itemTrait C) uuid org st).get t org uuid =
        .ok (some (Item.mk v.name v.uuid st v.organization))) ∧
    (s.update_state t (itemTrait C) uuid org st).get t2 o2 u2 = s.get t2 o2 u2 ∧
    (BMap.find? uuid (s.itemsOf t org) = none →
      s.update_state t (itemTrait C) uuid org st = s) := by
  refine ⟨?_, ?_, ?_⟩
  · intro hget
    exact get_update_found (itemTrait C) st hget
  · rw [update_state_eq_mapAt]
    by_cases ht : t2 = t
    · subst ht
      by_cases ho : o2 = org
      · subst ho
        have hu : u2 ≠ uuid := by
          rcases hd with h | h | h
          · exact absurd rfl h
          · exact absurd rfl h
          · exact h
        exact get_mapAt_modify_ne_uuid hu s t2 o2 _
      · exact get_mapAt_ne_org ho s t2 _ u2
    · exact get_congr (find?_contents_mapAt_ne ht s org _) o2 u2
  · intro habs
    exact update_state_absent habs (itemTrait C) st

/-- Witness for C7 at concrete inputs: the state of itA moves to Running
while its other fields survive, an unrelated coordinate is untouched, and an
absent uuid leaves the store identical. -/
theorem c7_update_state_frame_witness :
    ((2 : TypeId) ≠ 0 ∨ ("x" : String) ≠ "test" ∨ ("y" : String) ≠ "1234") ∧
    (bowl1.update_state 0 (itemTrait Bingo) "1234" "test" Bingo.Running).get 0 "test"
      "1234" = .ok (some (Item.mk "test.mp4" "1234" Bingo.Running "test")) ∧
    (bowl1.update_state 0 (itemTrait Bingo) "1234" "test" Bingo.Running).get 2 "x" "y" =
      bowl1.get 2 "x" "y" ∧
    bowl1.update_state 0 (itemTrait Bingo) "zz" "test" Bingo.Running = bowl1 := by
  have h := c7_update_state_frame bowl1 0 "1234" "test" Bingo.Running itA 2 "x" "y"
    (Or.inl (by decide))
  have h2 := c7_update_state_frame bowl1 0 "zz" "test" Bingo.Running itA 2 "x" "y"
    (Or.inl (by decide))
  exact ⟨Or.inl (by decide), h.1 rfl, h.2.1, h2.2.2 rfl⟩

/-- C9: extend, modelled from the spec because it is absent from the source,
is definitionally sequential add in sequence order keyed by each item own
recorded organization, and a later duplicate coordinate overwrites an
earlier one within the same call. -/
theorem c9_extend_refines_add {Fam : TypeId → Type} {C : Type} (s : Bowl Fam)
    (t : TypeId) (inst : MediaTrait (Fam t) C) (items : List (Fam t)) (i1 i2 : Fam t)
    (hu : inst.get_uuid i1 = inst.get_uuid i2)
    (ho : inst.get_organization i1 = inst.get_organization i2) :
    s.extend t inst items =
      items.foldl (fun b i => b.add t inst (inst.get_organization i) i) s ∧
    (s.extend t inst [i1, i2]).get t (inst.get_organization i2) (inst.get_uuid i2) =
      .ok (some i2) ∧
    (s.extend t inst [i1, i2]).get t (inst.get_organization i1) (inst.get_uuid i1) =
      .ok (some i2) := by
  refine ⟨rfl, ?_, ?_⟩
  · exact get_add_self (s.add t inst (inst.get_organization i1) i1) t inst
      (inst.get_organization i2) i2
  · rw [ho, hu]
    exact get_add_self (s.add t inst (inst.get_organization i1) i1) t inst
      (inst.get_organization i2) i2

/-- Witness for C9 at concrete inputs: itX2 duplicates the coordinate of itX
and wins within a single extend call. -/
theorem c9_extend_refines_add_witness :
    (itemTrait Bingo).get_uuid itX = (itemTrait Bingo).get_uuid itX2 ∧
    (itemTrait Bingo).get_organization itX = (itemTrait Bingo).get_organization itX2 ∧
    (Bowl.new : Bowl (ItemFam Bingo)).extend 0 (itemTrait Bingo) [itX] =
      [itX].foldl
        (fun b i => b.add 0 (itemTrait Bingo) ((itemTrait Bingo).get_organization i) i)
        Bowl.new ∧
    ((Bowl.new : Bowl (ItemFam Bingo)).extend 0 (itemTrait Bingo) [itX, itX2]).get 0
      ((itemTrait Bingo).get_organization itX2) ((itemTrait Bingo).get_uuid itX2) =
      .ok (some itX2) ∧
    ((Bowl.new : Bowl (ItemFam Bingo)).extend 0 (itemTrait Bingo) [itX, itX2]).get 0
      ((itemTrait Bingo).get_organization itX) ((itemTrait Bingo).get_uuid itX) =
      .ok (some itX2) := by
  have h := c9_extend_refines_add (Bowl.new : Bowl (ItemFam Bingo)) 0 (itemTrait Bingo)
    [itX] itX itX2 rfl rfl
  exact ⟨rfl, rfl, h.1, h.2.1, h.2.2⟩

/-- C10: on every store reachable by any sequence of operations, every
erased box in the partition of a token downcasts successfully at that token,
so the force-unwrapped recovery steps of get_all and
filter_by_org_and_state never panic. -/
theorem c10_type_recovery {Fam : TypeId → Type} {C : Type} (s : Bowl Fam)
    (hs : Reachable s) (t : TypeId) (o : String) (inst : MediaTrait (Fam t) C)
    (eqC : C → C → Bool) (st : C) :
    ((s.itemsOf t o).all fun p => (p.2.downcast t).isSome) = true ∧
    isOkE (s.get_all t o) = true ∧
    isOkE (s.filter_by_org_and_state t inst eqC o st) = true := by
  have hT := reachable_typeOk hs
  have hall : ∀ p ∈ s.itemsOf t o, (p.2.downcast t).isSome = true := by
    intro p hp
    exact downcast_isSome_of_tid (hT t o p hp)
  refine ⟨List.all_eq_true.mpr hall, get_all_ok_of_all_downcast hall, ?_⟩
  rw [filter_eq_get_all, isOkE_map]
  exact get_all_ok_of_all_downcast hall

/-- Witness for C10 on a concretely reached store. -/
theorem c10_type_recovery_witness :
    ((bowl1.itemsOf 0 "test").all fun p => (p.2.downcast 0).isSome) = true ∧
    isOkE (bowl1.get_all 0 "test") = true ∧
    isOkE (bowl1.filter_by_org_and_state 0 (itemTrait Bingo) bingoEq "test"
      Bingo.Runnable) = true := by
  have hr : Reachable bowl1 := by
    show Reachable ((Bowl.new : Bowl (ItemFam Bingo)).add 0 (itemTrait Bingo) "test" itA)
    exact Reachable.add
      (Reachable.new : Reachable (Bowl.new : Bowl (ItemFam Bingo))) 0
      (itemTrait Bingo) "test" itA
  exact c10_type_recovery bowl1 hr 0 "test" (itemTrait Bingo) bingoEq Bingo.Runnable

theorem partGood_new {Fam : TypeId → Type} {C : Type} (t : TypeId)
    (inst : MediaTrait (Fam t) C) (o : String) :
    (Bowl.new : Bowl Fam).PartGood t inst o := by
  constructor
  · show ((Bowl.new : Bowl Fam).itemsOf t o).map Prod.fst |>.Nodup
    simp [Bowl.itemsOf, Bowl.orgsOf, Bowl.new, BMap.find?]
  · intro p hp
    simp [Bowl.itemsOf, Bowl.orgsOf, Bowl.new, BMap.find?] at hp

/-- C3: replace semantics.  Adding a second item at an occupied coordinate
of a well-formed partition makes get return only the new value, and the old
value disappears from the filter bucket of its old state. -/
theorem c3_replace {Fam : TypeId → Type} {C : Type} (s : Bowl Fam) (t : TypeId)
    (inst : MediaTrait (Fam t) C) (eqC : C → C → Bool) (o u : String) (i1 i2 : Fam t)
    (hPG : s.PartGood t inst o)
    (h1o : inst.get_organization i1 = o) (h2o : inst.get_organization i2 = o)
    (h1u : inst.get_uuid i1 = u) (h2u : inst.get_uuid i2 = u) (hne : i1 ≠ i2) :
    ((s.add t inst o i1).add t inst o i2).get t o u = .ok (some i2) ∧
    allMemOk (fun w => w ≠ i1)
      (((s.add t inst o i1).add t inst o i2).filter_by_org_and_state t inst eqC o
        (inst.get_state i1)) := by
  constructor
  · have h := get_add_self (s.add t inst o i1) t inst o i2
    rw [h2o, h2u] at h
    exact h
  · have hfil := filter_add_self (s.add t inst o i1) t inst eqC o i2 (inst.get_state i1)
    rw [h2o, h2u] at hfil
    have hit : (s.add t inst o i1).itemsOf t o =
        BMap.insert u ⟨t, i1⟩ (s.itemsOf t o) := by
      have h := itemsOf_add_self s t inst o i1
      rw [h1o, h1u] at h
      exact h
    rw [hfil, hit, BMap.insert_insert]
    apply downcastFilter_allMemOk
    intro p hp
    rcases BMap.mem_insert_nodup hPG.1 hp with he | ⟨hm, hk⟩
    · subst he
      exact ⟨i2, downcast_mk t i2, fun _ => Ne.symm hne⟩
    · obtain ⟨w, hw, hwu⟩ := boxGood_elim (hPG.2 p hm)
      refine ⟨w, hw, fun _ => ?_⟩
      intro hwi
      apply hk
      rw [← hwu, hwi, h1u]

/-- Witness for C3 at concrete inputs: itX2 replaces itX in full and itX no
longer shows up in the Runnable bucket. -/
theorem c3_replace_witness :
    (((Bowl.new : Bowl (ItemFam Bingo)).add 0 (itemTrait Bingo) "test" itX).add 0
      (itemTrait Bingo) "test" itX2).get 0 "test" "12341" = .ok (some itX2) ∧
    allMemOk (fun w => w ≠ itX)
      ((((Bowl.new : Bowl (ItemFam Bingo)).add 0 (itemTrait Bingo) "test" itX).add 0
        (itemTrait Bingo) "test" itX2).filter_by_org_and_state 0 (itemTrait Bingo)
        bingoEq "test" ((itemTrait Bingo).get_state itX)) :=
  by
  have hPG : (Bowl.new : Bowl (ItemFam Bingo)).PartGood 0 (itemTrait Bingo) "test" := by
    constructor
    · show (((Bowl.new : Bowl (ItemFam Bingo)).itemsOf 0 "test").map Prod.fst).Nodup
      decide
    · decide
  exact c3_replace (Bowl.new : Bowl (ItemFam Bingo)) 0 (itemTrait Bingo) bingoEq "test"
    "12341" itX itX2 hPG rfl rfl rfl rfl (by decide)

/-- C4: filter_by_org_and_state returns exactly the state-matching subset of
get_all, and update_state moves an item between filter buckets: after the
update nothing in the old-state bucket carries the updated uuid, and the
updated value is a member of the new-state bucket. -/
theorem c4_state_filter {Fam : TypeId → Type} {C : Type} (s : Bowl Fam) (t : TypeId)
    (inst : MediaTrait (Fam t) C) (eqC : C → C → Bool) (o : String) (st : C)
    (u : String) (v : Fam t) (st2 : C)
    (heqC : ∀ a b : C, eqC a b = true ↔ a = b)
    (hset : ∀ x c, inst.get_state (inst.set_state x c) = c)
    (hPG : s.PartGood t inst o)
    (hget : s.get t o u = .ok (some v))
    (hne : inst.get_state v ≠ st2) :
    s.filter_by_org_and_state t inst eqC o st =
      (s.get_all t o).map (List.filter fun w => eqC (inst.get_state w) st) ∧
    allMemOk (fun w => inst.get_uuid w ≠ u)
      ((s.update_state t inst u o st2).filter_by_org_and_state t inst eqC o
        (inst.get_state v)) ∧
    memOk (inst.set_state v st2)
      ((s.update_state t inst u o st2).filter_by_org_and_state t inst eqC o st2) := by
  obtain ⟨om, im, b, hft, hfo, hfu, hb⟩ := get_ok_some_elim hget
  have him : s.itemsOf t o = im := itemsOf_of_finds hft hfo
  have hfil : ∀ st3 : C, (s.update_state t inst u o st2).filter_by_org_and_state t inst
      eqC o st3 = downcastFilter t (fun w => eqC (inst.get_state w) st3)
      (BMap.modify u (fun bx => bx.updState t inst st2) im) := by
    intro st3
    rw [update_state_eq_mapAt]
    exact filter_mapAt_found hft hfo _ inst eqC st3
  have hndim : BMap.NodupKeys im := him ▸ hPG.1
  have hPGim : ∀ p ∈ im, boxGood t inst p = true := by
    intro p hp
    exact hPG.2 p (him ▸ hp)
  refine ⟨filter_eq_get_all s t inst eqC o st, ?_, ?_⟩
  · rw [hfil (inst.get_state v)]
    apply downcastFilter_allMemOk
    intro p hp
    rcases BMap.mem_modify_nodup hndim hp with ⟨hm, hk⟩ | ⟨b2, hb2, he⟩
    · obtain ⟨w, hw, hwu⟩ := boxGood_elim (hPGim p hm)
      refine ⟨w, hw, fun _ => ?_⟩
      rw [hwu]
      exact hk
    · have hbb : b = b2 := by
        rw [hfu] at hb2
        injection hb2
      subst hbb
      subst he
      refine ⟨inst.set_state v st2, ?_, ?_⟩
      · show ((b.updState t inst st2).downcast t) = _
        rw [updState_of_downcast inst st2 hb]
        exact downcast_mk t _
      · intro hpred
        exfalso
        have hp2 : eqC (inst.get_state (inst.set_state v st2)) (inst.get_state v) =
            true := hpred
        rw [hset] at hp2
        exact hne ((heqC _ _).mp hp2).symm
  · rw [hfil st2]
    apply downcastFilter_memOk
    · intro p hp
      rcases BMap.mem_modify hp with hm | ⟨q, hq, hqk, he⟩
      · obtain ⟨w, hw, _⟩ := boxGood_elim (hPGim p hm)
        rw [hw]
        rfl
      · obtain ⟨w, hw, _⟩ := boxGood_elim (hPGim q hq)
        rw [he]
        show ((q.2.updState t inst st2).downcast t).isSome = true
        rw [updState_of_downcast inst st2 hw, downcast_mk]
        rfl
    · refine ⟨(u, b.updState t inst st2), ?_, ?_⟩
      · apply BMap.find?_mem
        rw [BMap.find?_modify_self, hfu]
        rfl
      · show ((b.updState t inst st2).downcast t) = _
        rw [updState_of_downcast inst st2 hb]
        exact downcast_mk t _
    · show eqC (inst.get_state (inst.set_state v st2)) st2 = true
      rw [hset]
      exact (heqC st2 st2).mpr rfl

/-- Witness for C4 at concrete inputs: itY moves from the Runnable bucket to
the Finished bucket of organization test. -/
theorem c4_state_filter_witness :
    bowlXY.filter_by_org_and_state 0 (itemTrait Bingo) bingoEq "test" Bingo.Runnable =
      (bowlXY.get_all 0 "test").map
        (List.filter fun w => bingoEq ((itemTrait Bingo).get_state w) Bingo.Runnable) ∧
    allMemOk (fun w => (itemTrait Bingo).get_uuid w ≠ "12342")
      ((bowlXY.update_state 0 (itemTrait Bingo) "12342" "test"
        Bingo.Finished).filter_by_org_and_state 0 (itemTrait Bingo) bingoEq "test"
        ((itemTrait Bingo).get_state itY)) ∧
    memOk ((itemTrait Bingo).set_state itY Bingo.Finished)
      ((bowlXY.update_state 0 (itemTrait Bingo) "12342" "test"
        Bingo.Finished).filter_by_org_and_state 0 (itemTrait Bingo) bingoEq "test"
        Bingo.Finished) := by
  have hPG : bowlXY.PartGood 0 (itemTrait Bingo) "test" := by
    constructor
    · show ((bowlXY.itemsOf 0 "test").map Prod.fst).Nodup
      decide
    · decide
  have h := c4_state_filter bowlXY 0 (itemTrait Bingo) bingoEq "test" Bingo.Runnable
    "12342" itY Bingo.Finished (fun a b => by simp [bingoEq]) (fun x c => rfl) hPG rfl
    (by decide)
  exact ⟨h.1, h.2.1, h.2.2⟩

end BowlSpec
